import Mathlib

/-!
Verification of the hybrid search engine of the Star_Seeker repository
(`src/search_engine.py`, class `StarSearcher`).

Python strings are modelled as lists of characters (`Str`), floating point
scores as rationals (`ℚ`): every comparison and arithmetic operation the
claims depend on is order-theoretic, and the BM25 idf values (natural
logarithms in `rank_bm25`) are kept abstract as a parameter `idfRaw`,
exactly as they enter the score formula through `self.idf.get(q) or 0`.
The external embedding provider is a boundary: the outcome of the
query-embedding call in `hybrid_search` (lines 144-160) is an
`Option (List ℚ)` argument holding the per-document cosine similarities
on success and `none` when the guarded block raises; the outcome of each
batch call of `_build_google_embeddings` is an `Option (List Vec)`.
Python `list.sort(key=..., reverse=True)` is a stable descending sort,
modelled by insertion sort `sortDescBy` with an `≤`-on-keys insertion
condition, which is extensionally the unique stable descending sort.
`np.argsort` (used by `rank_bm25.get_top_n`) is modelled as a stable
ascending argsort; numpy leaves the order of tied scores unspecified and
no theorem below depends on the tie order of that function, only on the
multiset and length of its output.
-/

/-- Python strings as character lists. -/
abbrev Str := List Char

/-- Python `str.lower()` (the corpus data is ASCII; `Char.toLower` agrees there). -/
def lowerStr (s : Str) : Str := s.map Char.toLower

/-- Whitespace recognised by Python `str.split()` (ASCII subset actually
occurring in the data: space, tab, newline, carriage return). -/
def isSpaceChar (c : Char) : Bool :=
  c == ' ' || c == '\t' || c == '\n' || c == '\r'

/-- Helper of `splitWs`: `acc` holds the current in-progress token, reversed. -/
def splitWsAux : Str → Str → List Str
  | [], acc => if acc = [] then [] else [acc.reverse]
  | c :: s, acc =>
    if isSpaceChar c then
      (if acc = [] then splitWsAux s [] else acc.reverse :: splitWsAux s [])
    else splitWsAux s (c :: acc)

/-- Python `str.split()` with no argument: split on whitespace runs, no
empty tokens. -/
def splitWs (s : Str) : List Str := splitWsAux s []

/-- Does `t` start the string `s`? -/
def startsWith : Str → Str → Bool
  | [], _ => true
  | _ :: _, [] => false
  | a :: t, b :: s => a == b && startsWith t s

/-- Python substring containment `t in s`. -/
def occursIn (t : Str) : Str → Bool
  | [] => decide (t = [])
  | c :: s => startsWith t (c :: s) || occursIn t s

/-- Insert `a` into a descending-sorted list, before the first element whose
key is not larger: this is where a stable descending sort places an element
that originally came before every element of `l`. -/
def insertDescBy {α : Type} (f : α → ℚ) (a : α) : List α → List α
  | [] => [a]
  | b :: l => if f b ≤ f a then a :: b :: l else b :: insertDescBy f a l

/-- Stable descending sort by a rational key; models Python
`list.sort(key=..., reverse=True)` extensionally (stable sorts by the same
key order coincide). -/
def sortDescBy {α : Type} (f : α → ℚ) : List α → List α
  | [] => []
  | a :: l => insertDescBy f a (sortDescBy f l)

/-- Index of the first element satisfying `p`; the list's length if none
does. -/
def firstIdx {α : Type} (p : α → Bool) : List α → Nat
  | [] => 0
  | a :: l => if p a then 0 else firstIdx p l + 1

/-- Pair each score with its position, starting at `n`. -/
def withIdxFrom (n : Nat) : List ℚ → List (ℚ × Nat)
  | [] => []
  | s :: l => (s, n) :: withIdxFrom (n + 1) l

/-- The list `[(score, idx)]` built by the loops at lines 151-156 and
(with the pair components transposed, which changes nothing about the rank
map) line 168 of `search_engine.py`. -/
def withIdx (l : List ℚ) : List (ℚ × Nat) := withIdxFrom 0 l

/-- The rank map of `hybrid_search`: sort the `(score, idx)` pairs by score,
descending and stable, then `ranks.get(i, N)` — the position of `i` among
the sorted pairs, or the default `N` when `i` carries no score at all. -/
def rankOfIdx (scores : List ℚ) (N i : Nat) : Nat :=
  let sorted := sortDescBy (fun p => p.1) (withIdx scores)
  let r := firstIdx (fun p => p.2 == i) sorted
  if r < sorted.length then r else N

/-- `i in vector_ranks` (line 178): the rank dictionary has a key for every
index that appears in the score enumeration. -/
def hasVecRank (vec : List ℚ) (i : Nat) : Bool :=
  (sortDescBy (fun p => p.1) (withIdx vec)).any (fun p => p.2 == i)

/-- One starred repository, with the fields the engine reads
(`full_name`, `description`, `topics`; the remaining JSON fields are
carried through untouched and are omitted). -/
structure Repo where
  full_name : Str
  description : Option Str
  topics : List Str
deriving DecidableEq

/-- Placeholder for the never-taken out-of-range branch of list indexing. -/
def emptyRepo : Repo := { full_name := [], description := none, topics := [] }

/-- Python `" ".join(topics)`. -/
def joinSpace : List Str → Str
  | [] => []
  | [t] => t
  | t :: ts => t ++ [' '] ++ joinSpace ts

/-- Line 64: `f"{repo['full_name']} {desc} {topics}"` where `desc` is the
description or `""` and `topics` is the space-joined topic list; also
recomputed verbatim at line 200 of `simple_keyword_search`. -/
def searchText (r : Repo) : Str :=
  r.full_name ++ [' '] ++ r.description.getD [] ++ [' '] ++ joinSpace r.topics

/-- The `rank_bm25.BM25Okapi` index as far as the engine observes it: the
tokenized corpus and the idf table. The table's numeric values are natural
logarithms with an epsilon floor; they are opaque to every claim and kept
abstract in `idfRaw`, while key lookup (`self.idf.get(q) or 0`) is modelled
exactly: words outside the corpus vocabulary contribute 0. -/
structure BM25Model where
  corpus : List (List Str)
  idfRaw : Str → ℚ

/-- `self.idf.get(q) or 0`: the idf table has a key for every word occurring
in the corpus; `or 0` maps both a missing key and a stored 0.0 to 0. -/
def idfGet (b : BM25Model) (q : Str) : ℚ :=
  if b.corpus.any (fun d => d.contains q) then b.idfRaw q else 0

/-- `self.avgdl`: total token count over corpus size. -/
def avgdl (b : BM25Model) : ℚ :=
  ((b.corpus.map List.length).sum : ℚ) / (b.corpus.length : ℚ)

/-- `BM25Okapi.get_scores` with `k1 = 1.5`, `b = 0.75`: per document, the sum
over query terms of `idf(q) * freq * (k1+1) / (freq + k1*(1 - b + b*dl/avgdl))`. -/
def get_scores (b : BM25Model) (query : List Str) : List ℚ :=
  b.corpus.map (fun doc =>
    (query.map (fun q =>
      let freq : ℚ := (doc.count q : ℚ)
      idfGet b q *
        (freq * (3 / 2 + 1) /
          (freq + 3 / 2 * (1 - 3 / 4 + 3 / 4 * (doc.length : ℚ) / avgdl b)))
    )).sum)

/-- `BM25Okapi.get_top_n`: `np.argsort(scores)[::-1][:n]` mapped over the
documents. No zero-score filtering happens here. -/
def get_top_n (b : BM25Model) (query : List Str) (docs : List Repo) (n : Nat) : List Repo :=
  let scores := get_scores b query
  let order := (((sortDescBy (fun p => -p.1) (withIdx scores)).map (fun p => p.2)).reverse).take n
  order.map (fun i => docs.getD i emptyRepo)

/-- An embedding vector (numeric values never inspected by the engine). -/
abbrev Vec := List ℚ

/-- The unpickled cache dictionary: `data.get("source")` and
`data.get("vectors")`, each possibly absent. -/
structure CacheData where
  source : Option String
  vectors : Option (List Vec)
deriving DecidableEq

/-- Which branch of `_load_or_build_embeddings` produced the session's
embeddings. -/
inductive EmbedLoad where
  | fromCache (vs : Option (List Vec))
  | rebuilt (vs : Option (List Vec))
deriving DecidableEq

/-- The embeddings held after the chosen branch. -/
def EmbedLoad.toOpt : EmbedLoad → Option (List Vec)
  | .fromCache v => v
  | .rebuilt v => v

/-- `_load_or_build_embeddings` (lines 76-99): a loadable cache is used iff
`data.get("source") == "google"` and `len(data.get("vectors"))` equals the
corpus size; `len(None)` raises inside the `try`, so an absent vector list
also falls through to the rebuild. `cacheLoad = none` covers both a missing
cache file and a failed unpickle. -/
def loadOrBuildEmbeddings (descrCount : Nat) (cacheLoad : Option CacheData)
    (buildRes : Option (List Vec)) : EmbedLoad :=
  match cacheLoad with
  | some c =>
    if c.source = some "google" ∧ c.vectors.map List.length = some descrCount then
      .fromCache c.vectors
    else .rebuilt buildRes
  | none => .rebuilt buildRes

/-- `_build_google_embeddings` (lines 101-123): batches are embedded in
order; the first provider failure aborts the build and returns `None`,
otherwise the batch vectors are concatenated. -/
def buildGoogleEmbeddings : List (Option (List Vec)) → Option (List Vec)
  | [] => some []
  | none :: _ => none
  | some vs :: rest =>
    match buildGoogleEmbeddings rest with
    | none => none
    | some acc => some (vs ++ acc)

/-- The mutable fields of `StarSearcher`. -/
structure Searcher where
  repos : List Repo
  descriptions : List Str
  embeddings : Option (List Vec)
  embedding_source : String
  bm25 : Option BM25Model
  google_client : Bool

/-- `load_data` preceded by the `__init__` field initialisation (lines
27-74): `fileData = none` is the missing-JSON early return; otherwise the
search texts are derived, the BM25 index is built when any exist, and the
vector index is loaded or built when the source is "google". Note that
`embedding_source` is never reassigned on this path. -/
def load_data (fileData : Option (List Repo)) (source : String) (client : Bool)
    (cacheLoad : Option CacheData) (batches : List (Option (List Vec)))
    (idfRaw : Str → ℚ) : Searcher :=
  match fileData with
  | none =>
    { repos := [], descriptions := [], embeddings := none,
      embedding_source := source, bm25 := none, google_client := client }
  | some repos =>
    let descriptions := repos.map searchText
    let bm : Option BM25Model :=
      if descriptions.isEmpty then none
      else some { corpus := descriptions.map (fun d => splitWs (lowerStr d)), idfRaw := idfRaw }
    let emb : Option (List Vec) :=
      if source = "google" ∧ descriptions.isEmpty = false then
        (loadOrBuildEmbeddings descriptions.length cacheLoad
          (buildGoogleEmbeddings batches)).toOpt
      else none
    { repos := repos, descriptions := descriptions, embeddings := emb,
      embedding_source := source, bm25 := bm, google_client := client }

/-- `simple_keyword_search` (lines 195-205): count the query terms occurring
as substrings of the lowered search text, keep positive scores, sort
descending (stable), truncate. -/
def simple_keyword_search (st : Searcher) (q : Str) (limit : Nat) : List Repo :=
  let query_terms := splitWs (lowerStr q)
  let results := st.repos.filterMap (fun repo =>
    let text := lowerStr (searchText repo)
    let score := (query_terms.filter (fun t => occursIn t text)).length
    if 0 < score then some ((score : ℚ), repo) else none)
  ((sortDescBy (fun p => p.1) results).take limit).map (fun p => p.2)

/-- `bm25_search` (lines 188-193). -/
def bm25_search (st : Searcher) (q : Str) (limit : Nat) : List Repo :=
  match st.bm25 with
  | none => simple_keyword_search st q limit
  | some b => get_top_n b (splitWs (lowerStr q)) st.repos limit

/-- The RRF score of line 182: `1/(60 + v_rank) + 1/(60 + b_rank)` with both
ranks drawn from the rank maps with default `len(repos)`. -/
def fusedScore (repos : List Repo) (vec bm : List ℚ) (i : Nat) : ℚ :=
  1 / (60 + (rankOfIdx vec repos.length i : ℚ)) +
    1 / (60 + (rankOfIdx bm repos.length i : ℚ))

/-- The `fused_scores` list of lines 175-183: every corpus index with a
positive BM25 score or a key in the vector rank map, paired with its RRF
score, in corpus order. -/
def fusedCandidates (repos : List Repo) (vec bm : List ℚ) : List (ℚ × Nat) :=
  (List.range repos.length).filterMap (fun i =>
    if 0 < bm.getD i 0 ∨ hasVecRank vec i = true then
      some (fusedScore repos vec bm i, i)
    else none)

/-- Line 185: the fused candidates sorted by RRF score, descending, stable. -/
def fusedRanking (repos : List Repo) (vec bm : List ℚ) : List (ℚ × Nat) :=
  sortDescBy (fun p => p.1) (fusedCandidates repos vec bm)

/-- `hybrid_search` (lines 138-186). `oracle` is the outcome of the guarded
vector block (lines 144-160): `none` when it raises — the `except` branch
demotes the query to `bm25_search` — and `some vec` with the per-document
cosine similarities otherwise. `b` is the non-`None` `self.bm25` the
dispatcher guaranteed. -/
def hybrid_search (st : Searcher) (b : BM25Model) (oracle : Option (List ℚ))
    (q : Str) (limit : Nat) : List Repo :=
  match oracle with
  | none => bm25_search st q limit
  | some vec =>
    let bm := get_scores b (splitWs (lowerStr q))
    ((fusedRanking st.repos vec bm).take limit).map (fun p => st.repos.getD p.2 emptyRepo)

/-- `search` (lines 125-136): hybrid when both indices exist, else BM25 when
the lexical index exists, else the substring fallback. -/
def search (st : Searcher) (oracle : Option (List ℚ)) (q : Str) (limit : Nat) : List Repo :=
  match st.embeddings, st.bm25 with
  | some _, some b => hybrid_search st b oracle q limit
  | none, some _ => bm25_search st q limit
  | _, none => simple_keyword_search st q limit

/-- `search` with the searcher state threaded explicitly: none of the
methods on the query path (lines 125-205) assigns to `self`, so each branch
returns the state it received. -/
def searchS (st : Searcher) (oracle : Option (List ℚ)) (q : Str) (limit : Nat) :
    List Repo × Searcher :=
  match st.embeddings, st.bm25 with
  | some _, some b => (hybrid_search st b oracle q limit, st)
  | none, some _ => (bm25_search st q limit, st)
  | _, none => (simple_keyword_search st q limit, st)

/-- Modelled from the words of the specification (claim C1's rank): the
document's 0-based position in the descending, stably sorted score list,
with a sentinel rank equal to the corpus size substituted for a document
absent from the list's positive-score subset. -/
def specRank (scores : List ℚ) (N i : Nat) : Nat :=
  if 0 < scores.getD i 0 then rankOfIdx scores N i else N

def cexIdf : Str → ℚ := fun _ => 1

def cexRepoA : Repo := { full_name := ['a'], description := none, topics := [] }

def cexRepoB : Repo := { full_name := ['b'], description := none, topics := [] }

def cexRepos : List Repo := [cexRepoA, cexRepoB]

def cexQuery : Str := ['a']

def cexBM : BM25Model := { corpus := [[['a']], [['b']]], idfRaw := cexIdf }

def cexCache : CacheData := { source := some "google", vectors := some [[1], [1]] }

def cexSt : Searcher := load_data (some cexRepos) "google" true (some cexCache) [] cexIdf

def rHello : Repo := { full_name := ['h', 'e', 'l', 'l', 'o'], description := none, topics := [] }

def cexQueryXyz : Str := ['x', 'y', 'z']

def cexStKw : Searcher := load_data (some [rHello]) "keyword" false none [] (fun _ => 0)

def cexStFail : Searcher := load_data (some cexRepos) "google" true none [none] cexIdf

theorem insertDescBy_perm {α : Type} (f : α → ℚ) (a : α) :
    ∀ l : List α, List.Perm (insertDescBy f a l) (a :: l) := by
  intro l
  induction l with
  | nil => exact List.Perm.refl _
  | cons b t ih =>
    by_cases h : f b ≤ f a
    · simp only [insertDescBy, if_pos h]
      exact List.Perm.refl _
    · simp only [insertDescBy, if_neg h]
      exact List.Perm.trans (List.Perm.cons b ih) (List.Perm.swap a b t)

theorem sortDescBy_perm {α : Type} (f : α → ℚ) :
    ∀ l : List α, List.Perm (sortDescBy f l) l := by
  intro l
  induction l with
  | nil => exact List.Perm.refl _
  | cons a t ih =>
    exact List.Perm.trans (insertDescBy_perm f a (sortDescBy f t)) (List.Perm.cons a ih)

theorem sortDescBy_length {α : Type} (f : α → ℚ) (l : List α) :
    (sortDescBy f l).length = l.length :=
  (sortDescBy_perm f l).length_eq

theorem mem_sortDescBy {α : Type} (f : α → ℚ) (l : List α) (a : α) :
    a ∈ sortDescBy f l ↔ a ∈ l :=
  (sortDescBy_perm f l).mem_iff

theorem mem_insertDescBy {α : Type} (f : α → ℚ) (a x : α) (l : List α) :
    x ∈ insertDescBy f a l ↔ x = a ∨ x ∈ l := by
  rw [(insertDescBy_perm f a l).mem_iff, List.mem_cons]

theorem pairwise_insertDescBy {α : Type} (f : α → ℚ) (a : α) :
    ∀ l : List α, List.Pairwise (fun x y => f y ≤ f x) l →
      List.Pairwise (fun x y => f y ≤ f x) (insertDescBy f a l) := by
  intro l
  induction l with
  | nil => intro _; simp [insertDescBy]
  | cons b t ih =>
    intro hp
    rcases List.pairwise_cons.mp hp with ⟨hb, ht⟩
    by_cases h : f b ≤ f a
    · simp only [insertDescBy, if_pos h]
      refine List.pairwise_cons.mpr ⟨?_, hp⟩
      intro y hy
      rcases List.mem_cons.mp hy with rfl | hy'
      · exact h
      · exact le_trans (hb y hy') h
    · simp only [insertDescBy, if_neg h]
      refine List.pairwise_cons.mpr ⟨?_, ih ht⟩
      intro y hy
      rcases (mem_insertDescBy f a y t).mp hy with rfl | hy'
      · exact le_of_lt (not_le.mp h)
      · exact hb y hy'

theorem sortDescBy_pairwise {α : Type} (f : α → ℚ) :
    ∀ l : List α, List.Pairwise (fun x y => f y ≤ f x) (sortDescBy f l) := by
  intro l
  induction l with
  | nil => simp [sortDescBy]
  | cons a t ih => exact pairwise_insertDescBy f a (sortDescBy f t) ih

theorem firstIdx_le_length {α : Type} (p : α → Bool) :
    ∀ l : List α, firstIdx p l ≤ l.length := by
  intro l
  induction l with
  | nil => simp [firstIdx]
  | cons a t ih =>
    by_cases h : p a
    · simp [firstIdx, h]
    · simp only [firstIdx, if_neg h, List.length_cons]
      omega

theorem firstIdx_lt_length {α : Type} (p : α → Bool) :
    ∀ l : List α, (∃ a ∈ l, p a = true) → firstIdx p l < l.length := by
  intro l
  induction l with
  | nil => rintro ⟨a, ha, _⟩; exact absurd ha (List.not_mem_nil a)
  | cons b t ih =>
    rintro ⟨a, ha, hp⟩
    by_cases hb : p b
    · simp [firstIdx, hb]
    · rcases List.mem_cons.mp ha with rfl | ha'
      · exact absurd hp hb
      · simp only [firstIdx, if_neg hb, List.length_cons]
        exact Nat.succ_lt_succ (ih ⟨a, ha', hp⟩)

theorem firstIdx_order {α : Type} (key : α → ℚ) (tag : α → Nat) :
    ∀ l : List α, List.Pairwise (fun x y => key y ≤ key x) l →
      (∀ x ∈ l, ∀ y ∈ l, tag x = tag y → x = y) →
      ∀ a b : α, a ∈ l → b ∈ l → key b < key a →
      firstIdx (fun x => tag x == tag a) l < firstIdx (fun x => tag x == tag b) l := by
  intro l
  induction l with
  | nil => intro _ _ a b ha; exact absurd ha (List.not_mem_nil a)
  | cons p rest ih =>
    intro hp hu a b ha hb hk
    rcases List.pairwise_cons.mp hp with ⟨hhead, htail⟩
    have hab : tag a ≠ tag b := by
      intro h
      have : a = b := hu a ha b hb h
      subst this
      exact lt_irrefl _ hk
    by_cases hpa : tag p = tag a
    · have h1 : firstIdx (fun x => tag x == tag a) (p :: rest) = 0 := by
        simp [firstIdx, hpa]
      have h2 : firstIdx (fun x => tag x == tag b) (p :: rest) ≠ 0 := by
        have : tag p ≠ tag b := hpa ▸ hab
        simp [firstIdx, this]
      omega
    · by_cases hpb : tag p = tag b
      · exfalso
        have hpb' : p = b := hu p (List.mem_cons_self p rest) b hb hpb
        have ha' : a ∈ rest := by
          rcases List.mem_cons.mp ha with rfl | h
          · exact absurd rfl hpa
          · exact h
        have : key a ≤ key p := hhead a ha'
        rw [hpb'] at this
        exact absurd hk (not_lt.mpr this)
      · have ha' : a ∈ rest := by
          rcases List.mem_cons.mp ha with rfl | h
          · exact absurd rfl hpa
          · exact h
        have hb' : b ∈ rest := by
          rcases List.mem_cons.mp hb with rfl | h
          · exact absurd rfl hpb
          · exact h
        have hu' : ∀ x ∈ rest, ∀ y ∈ rest, tag x = tag y → x = y := by
          intro x hx y hy
          exact hu x (List.mem_cons_of_mem p hx) y (List.mem_cons_of_mem p hy)
        have hrec := ih htail hu' a b ha' hb' hk
        have e1 : firstIdx (fun x => tag x == tag a) (p :: rest) =
            firstIdx (fun x => tag x == tag a) rest + 1 := by
          simp [firstIdx, hpa]
        have e2 : firstIdx (fun x => tag x == tag b) (p :: rest) =
            firstIdx (fun x => tag x == tag b) rest + 1 := by
          simp [firstIdx, hpb]
        omega

theorem withIdxFrom_length (n : Nat) :
    ∀ l : List ℚ, (withIdxFrom n l).length = l.length := by
  intro l
  induction l generalizing n with
  | nil => simp [withIdxFrom]
  | cons s t ih => simp [withIdxFrom, ih]

theorem withIdxFrom_snd_ge (n : Nat) :
    ∀ l : List ℚ, ∀ a ∈ withIdxFrom n l, n ≤ a.2 := by
  intro l
  induction l generalizing n with
  | nil => intro a ha; exact absurd ha (List.not_mem_nil a)
  | cons s t ih =>
    intro a ha
    rcases List.mem_cons.mp ha with rfl | ha'
    · exact le_refl n
    · exact le_trans (Nat.le_succ n) (ih (n + 1) a ha')

theorem withIdxFrom_snd_lt (n : Nat) :
    ∀ l : List ℚ, ∀ a ∈ withIdxFrom n l, a.2 < n + l.length := by
  intro l
  induction l generalizing n with
  | nil => intro a ha; exact absurd ha (List.not_mem_nil a)
  | cons s t ih =>
    intro a ha
    rcases List.mem_cons.mp ha with rfl | ha'
    · simp
    · have := ih (n + 1) a ha'
      simp only [List.length_cons]
      omega

theorem withIdxFrom_uniq (n : Nat) :
    ∀ l : List ℚ, ∀ a ∈ withIdxFrom n l, ∀ b ∈ withIdxFrom n l, a.2 = b.2 → a = b := by
  intro l
  induction l generalizing n with
  | nil => intro a ha; exact absurd ha (List.not_mem_nil a)
  | cons s t ih =>
    intro a ha b hb he
    rcases List.mem_cons.mp ha with rfl | ha' <;> rcases List.mem_cons.mp hb with rfl | hb'
    · rfl
    · exfalso
      have := withIdxFrom_snd_ge (n + 1) t b hb'
      omega
    · exfalso
      have := withIdxFrom_snd_ge (n + 1) t a ha'
      omega
    · exact ih (n + 1) a ha' b hb' he

theorem getD_mem_withIdxFrom (n : Nat) :
    ∀ l : List ℚ, ∀ k, k < l.length → (l.getD k 0, n + k) ∈ withIdxFrom n l := by
  intro l
  induction l generalizing n with
  | nil => intro k hk; simp at hk
  | cons s t ih =>
    intro k hk
    cases k with
    | zero => simp [withIdxFrom]
    | succ k =>
      have hk' : k < t.length := by simpa using hk
      have := ih (n + 1) k hk'
      have he : n + 1 + k = n + (k + 1) := by omega
      rw [he] at this
      exact List.mem_cons_of_mem _ (by simpa [withIdxFrom] using this)

theorem getD_mem_withIdx (l : List ℚ) (k : Nat) (hk : k < l.length) :
    (l.getD k 0, k) ∈ withIdx l := by
  have := getD_mem_withIdxFrom 0 l k hk
  simpa [withIdx] using this

theorem hasVecRank_iff (vec : List ℚ) (i : Nat) :
    hasVecRank vec i = true ↔ i < vec.length := by
  unfold hasVecRank
  rw [List.any_eq_true]
  constructor
  · rintro ⟨a, ha, hp⟩
    have ha' : a ∈ withIdx vec := (mem_sortDescBy _ _ a).mp ha
    have := withIdxFrom_snd_lt 0 vec a ha'
    have he : a.2 = i := by simpa using hp
    omega
  · intro hi
    refine ⟨(vec.getD i 0, i), ?_, by simp⟩
    exact (mem_sortDescBy _ _ _).mpr (getD_mem_withIdx vec i hi)

theorem rankOfIdx_lt (scores : List ℚ) (N i : Nat) (hi : i < scores.length) :
    rankOfIdx scores N i =
      firstIdx (fun p => p.2 == i) (sortDescBy (fun p => p.1) (withIdx scores)) := by
  unfold rankOfIdx
  have hmem : (scores.getD i 0, i) ∈ sortDescBy (fun p => p.1) (withIdx scores) :=
    (mem_sortDescBy _ _ _).mpr (getD_mem_withIdx scores i hi)
  have hlt : firstIdx (fun p => p.2 == i) (sortDescBy (fun p => p.1) (withIdx scores)) <
      (sortDescBy (fun p => p.1) (withIdx scores)).length :=
    firstIdx_lt_length _ _ ⟨(scores.getD i 0, i), hmem, by simp⟩
  simp only [hlt, if_pos]

theorem rankOfIdx_strict (scores : List ℚ) (N i j : Nat)
    (hi : i < scores.length) (hj : j < scores.length)
    (h : scores.getD j 0 < scores.getD i 0) :
    rankOfIdx scores N i < rankOfIdx scores N j := by
  rw [rankOfIdx_lt scores N i hi, rankOfIdx_lt scores N j hj]
  have hperm := sortDescBy_perm (fun p : ℚ × Nat => p.1) (withIdx scores)
  have hu : ∀ x ∈ sortDescBy (fun p : ℚ × Nat => p.1) (withIdx scores),
      ∀ y ∈ sortDescBy (fun p : ℚ × Nat => p.1) (withIdx scores), x.2 = y.2 → x = y := by
    intro x hx y hy
    exact withIdxFrom_uniq 0 scores x (hperm.mem_iff.mp hx) y (hperm.mem_iff.mp hy)
  have hmi : (scores.getD i 0, i) ∈ sortDescBy (fun p : ℚ × Nat => p.1) (withIdx scores) :=
    hperm.mem_iff.mpr (getD_mem_withIdx scores i hi)
  have hmj : (scores.getD j 0, j) ∈ sortDescBy (fun p : ℚ × Nat => p.1) (withIdx scores) :=
    hperm.mem_iff.mpr (getD_mem_withIdx scores j hj)
  have := firstIdx_order (fun p : ℚ × Nat => p.1) (fun p => p.2) _
    (sortDescBy_pairwise _ _) hu (scores.getD i 0, i) (scores.getD j 0, j) hmi hmj h
  exact this

theorem startsWith_self_append : ∀ t r : Str, startsWith t (t ++ r) = true := by
  intro t
  induction t with
  | nil => intro r; rfl
  | cons a t ih => intro r; simp [startsWith, ih r]

theorem occursIn_of_decomp : ∀ l t r s : Str, s = l ++ t ++ r → occursIn t s = true := by
  intro l
  induction l with
  | nil =>
    intro t r s hs
    simp only [List.nil_append] at hs
    subst hs
    cases t with
    | nil =>
      cases r with
      | nil => simp [occursIn]
      | cons c r' => simp [occursIn, startsWith]
    | cons a t' =>
      simp only [List.cons_append, occursIn, Bool.or_eq_true]
      left
      exact startsWith_self_append (a :: t') r
  | cons c l' ih =>
    intro t r s hs
    subst hs
    simp only [List.cons_append, occursIn, Bool.or_eq_true]
    right
    exact ih t r _ rfl

theorem splitWsAux_decomp :
    ∀ s acc t : Str, t ∈ splitWsAux s acc → ∃ l r, l ++ t ++ r = acc.reverse ++ s := by
  intro s
  induction s with
  | nil =>
    intro acc t ht
    by_cases h : acc = []
    · rw [h] at ht; simp [splitWsAux] at ht
    · simp only [splitWsAux, if_neg h, List.mem_singleton] at ht
      subst ht
      exact ⟨[], [], by simp⟩
  | cons c s' ih =>
    intro acc t ht
    by_cases hsp : isSpaceChar c = true
    · by_cases h : acc = []
      · simp only [splitWsAux, if_pos hsp, if_pos h] at ht
        rcases ih [] t ht with ⟨l, r, he⟩
        simp only [List.reverse_nil, List.nil_append] at he
        subst h
        exact ⟨c :: l, r, by simp [he]⟩
      · simp only [splitWsAux, if_pos hsp, if_neg h, List.mem_cons] at ht
        rcases ht with rfl | ht'
        · exact ⟨[], c :: s', by simp⟩
        · rcases ih [] t ht' with ⟨l, r, he⟩
          simp only [List.reverse_nil, List.nil_append] at he
          refine ⟨acc.reverse ++ c :: l, r, ?_⟩
          simp [he, List.append_assoc]
    · simp only [splitWsAux, if_neg hsp] at ht
      rcases ih (c :: acc) t ht with ⟨l, r, he⟩
      simp only [List.reverse_cons] at he
      refine ⟨l, r, ?_⟩
      rw [he]
      simp [List.append_assoc]

theorem occursIn_of_mem_splitWs (t s : Str) (ht : t ∈ splitWs s) : occursIn t s = true := by
  rcases splitWsAux_decomp s [] t ht with ⟨l, r, he⟩
  simp only [List.reverse_nil, List.nil_append] at he
  exact occursIn_of_decomp l t r s he.symm

theorem mem_fusedCandidates (repos : List Repo) (vec bm : List ℚ) (a : ℚ × Nat) :
    a ∈ fusedCandidates repos vec bm ↔
      a.2 < repos.length ∧ (0 < bm.getD a.2 0 ∨ hasVecRank vec a.2 = true) ∧
        a.1 = fusedScore repos vec bm a.2 := by
  unfold fusedCandidates
  rw [List.mem_filterMap]
  constructor
  · rintro ⟨i, hi, hfi⟩
    rw [List.mem_range] at hi
    by_cases hc : 0 < bm.getD i 0 ∨ hasVecRank vec i = true
    · rw [if_pos hc] at hfi
      have : a = (fusedScore repos vec bm i, i) := (Option.some.inj hfi).symm
      subst this
      exact ⟨hi, hc, rfl⟩
    · rw [if_neg hc] at hfi
      exact absurd hfi (Option.noConfusion)
  · rintro ⟨h1, h2, h3⟩
    refine ⟨a.2, List.mem_range.mpr h1, ?_⟩
    rw [if_pos h2, ← h3]

theorem fusedCandidates_uniq (repos : List Repo) (vec bm : List ℚ) :
    ∀ x ∈ fusedCandidates repos vec bm, ∀ y ∈ fusedCandidates repos vec bm,
      x.2 = y.2 → x = y := by
  intro x hx y hy he
  rcases (mem_fusedCandidates repos vec bm x).mp hx with ⟨_, _, hx3⟩
  rcases (mem_fusedCandidates repos vec bm y).mp hy with ⟨_, _, hy3⟩
  have : x = (x.1, x.2) := rfl
  rw [this, hx3, he, ← hy3]

theorem buildGoogleEmbeddings_of_fail :
    ∀ batches : List (Option (List Vec)), none ∈ batches →
      buildGoogleEmbeddings batches = none := by
  intro batches
  induction batches with
  | nil => intro h; exact absurd h (List.not_mem_nil none)
  | cons b t ih =>
    intro h
    cases b with
    | none => rfl
    | some vs =>
      rcases List.mem_cons.mp h with h' | h'
      · exact absurd h'.symm (Option.noConfusion)
      · simp only [buildGoogleEmbeddings, ih h']

theorem get_scores_length (b : BM25Model) (query : List Str) :
    (get_scores b query).length = b.corpus.length := by
  simp [get_scores]

theorem get_top_n_length (b : BM25Model) (query : List Str) (docs : List Repo) (n : Nat) :
    (get_top_n b query docs n).length = min n b.corpus.length := by
  simp [get_top_n, sortDescBy_length, withIdx, withIdxFrom_length, get_scores_length]

theorem simple_keyword_search_length_le (st : Searcher) (q : Str) (limit : Nat) :
    (simple_keyword_search st q limit).length ≤ limit := by
  simp only [simple_keyword_search, List.length_map, List.length_take]
  exact Nat.min_le_left _ _

theorem bm25_search_length_le (st : Searcher) (q : Str) (limit : Nat) :
    (bm25_search st q limit).length ≤ limit := by
  unfold bm25_search
  cases st.bm25 with
  | none => exact simple_keyword_search_length_le st q limit
  | some b =>
    rw [get_top_n_length]
    exact Nat.min_le_left _ _

theorem hybrid_search_length_le (st : Searcher) (b : BM25Model) (oracle : Option (List ℚ))
    (q : Str) (limit : Nat) : (hybrid_search st b oracle q limit).length ≤ limit := by
  unfold hybrid_search
  cases oracle with
  | none => exact bm25_search_length_le st q limit
  | some vec =>
    simp only [List.length_map, List.length_take]
    exact Nat.min_le_left _ _

theorem get_scores_zero_of_no_overlap (corpus : List (List Str)) (idfRaw : Str → ℚ)
    (query : List Str)
    (h : ∀ t ∈ query, ∀ doc ∈ corpus, t ∉ doc) :
    get_scores { corpus := corpus, idfRaw := idfRaw } query =
      List.replicate corpus.length 0 := by
  unfold get_scores
  rw [List.eq_replicate_iff]
  refine ⟨by simp, ?_⟩
  intro x hx
  rcases List.mem_map.mp hx with ⟨doc, hdoc, hval⟩
  rw [← hval]
  apply List.sum_eq_zero
  intro y hy
  rcases List.mem_map.mp hy with ⟨t, ht, hyval⟩
  rw [← hyval]
  have hcount : doc.count t = 0 := List.count_eq_zero.mpr (h t ht doc hdoc)
  simp [hcount]

unseal Rat.add Rat.mul Rat.inv Rat.sub in
/-- C1, counterexample: in the two-document corpus `cexRepos` with query
"a", document 1 has BM25 score 0 and vector similarity 0, so the claim's
sentinel rank (corpus size 2 in both lists) would give it fused score
1/62 + 1/62 = 1/31; the code's fused candidate list instead holds it with
score 1/61 + 1/61 = 2/61, because both rank maps rank every document by its
position in the full sorted list and the sentinel is never substituted. -/
theorem c1_sentinel_rank_cex :
    cexSt.bm25 = some cexBM ∧
    (2 / 61, 1) ∈ fusedCandidates cexRepos [0, 0] (get_scores cexBM (splitWs (lowerStr cexQuery))) ∧
    (2 / 61 : ℚ) ≠
      1 / (60 + (specRank [0, 0] cexRepos.length 1 : ℚ)) +
        1 / (60 + (specRank (get_scores cexBM (splitWs (lowerStr cexQuery))) cexRepos.length 1 : ℚ)) :=
  ⟨rfl, by decide, by decide⟩

/-- C1 (amended): in the hybrid (RRF) path, every entry of the fused
candidate list pairs a document with the score
`1/(60 + vector_rank) + 1/(60 + lexical_rank)`, where each rank is the
document's 0-based position in the corresponding descending, stably sorted
score list covering all documents (the `len(repos)` default of the rank
lookup is substituted only for an index absent from a score list
altogether, which does not happen when the lists cover the corpus); no
sentinel is substituted for documents outside a list's positive-score
subset. -/
theorem c1_rrf_score_formula :
    ∀ (repos : List Repo) (vec bm : List ℚ) (a : ℚ × Nat),
    a ∈ fusedCandidates repos vec bm →
    a.1 = 1 / (60 + (rankOfIdx vec repos.length a.2 : ℚ)) +
      1 / (60 + (rankOfIdx bm repos.length a.2 : ℚ)) := by
  intro repos vec bm a ha
  have h := ((mem_fusedCandidates repos vec bm a).mp ha).2.2
  simpa [fusedScore] using h

unseal Rat.add Rat.mul Rat.inv Rat.sub in
/-- Witness for the amended C1 at a concrete input. -/
theorem c1_rrf_score_formula_wit :
    (1 / 30 : ℚ) = 1 / (60 + (rankOfIdx [0, 0] cexRepos.length 0 : ℚ)) +
      1 / (60 + (rankOfIdx (get_scores cexBM (splitWs (lowerStr cexQuery))) cexRepos.length 0 : ℚ)) :=
  c1_rrf_score_formula cexRepos [0, 0] (get_scores cexBM (splitWs (lowerStr cexQuery)))
    (1 / 30, 0) (by decide)

unseal Rat.add Rat.mul Rat.inv Rat.sub in
/-- C2, counterexample: document 1 of `cexRepos` has BM25 score 0 and
vector similarity 0 for query "a" — zero signal in both lists — yet the
returned hybrid ranking contains it, because every index is a key of the
vector rank map, so the inclusion test of line 178 never excludes anything. -/
theorem c2_zero_signal_included_cex :
    (get_scores cexBM (splitWs (lowerStr cexQuery))).getD 1 0 = 0 ∧
    (([0, 0] : List ℚ).getD 1 0 = 0) ∧
    search cexSt (some [0, 0]) cexQuery 5 = [cexRepoA, cexRepoB] ∧
    cexRepoB ∈ search cexSt (some [0, 0]) cexQuery 5 :=
  ⟨by decide, by decide, by decide, by decide⟩

/-- C2 (amended): a document enters the fused candidate set iff it has a
positive lexical score or a key in the vector rank map, and the vector rank
map has a key for every index of the vector score list; hence when the
vector scores cover the corpus every document is a fused candidate and
zero-signal documents are not excluded. -/
theorem c2_fused_candidate_iff :
    ∀ (repos : List Repo) (vec bm : List ℚ) (i : Nat),
    (i ∈ (fusedCandidates repos vec bm).map (fun p => p.2) ↔
      i < repos.length ∧ (0 < bm.getD i 0 ∨ i < vec.length)) ∧
    (vec.length = repos.length → i < repos.length →
      i ∈ (fusedCandidates repos vec bm).map (fun p => p.2)) := by
  intro repos vec bm i
  have hmain : i ∈ (fusedCandidates repos vec bm).map (fun p => p.2) ↔
      i < repos.length ∧ (0 < bm.getD i 0 ∨ i < vec.length) := by
    rw [List.mem_map]
    constructor
    · rintro ⟨a, ha, rfl⟩
      rcases (mem_fusedCandidates repos vec bm a).mp ha with ⟨h1, h2, _⟩
      rw [hasVecRank_iff] at h2
      exact ⟨h1, h2⟩
    · rintro ⟨h1, h2⟩
      refine ⟨(fusedScore repos vec bm i, i), ?_, rfl⟩
      refine (mem_fusedCandidates repos vec bm _).mpr ⟨h1, ?_, rfl⟩
      rw [hasVecRank_iff]
      exact h2
  refine ⟨hmain, ?_⟩
  intro hcov hi
  exact hmain.mpr ⟨hi, Or.inr (hcov ▸ hi)⟩

unseal Rat.add Rat.mul Rat.inv Rat.sub in
/-- Witness for the amended C2 at a concrete input: with zero scores in
both lists, index 1 is still a fused candidate. -/
theorem c2_fused_candidate_iff_wit :
    1 ∈ (fusedCandidates cexRepos [0, 0] [0, 0]).map (fun p => p.2) :=
  (c2_fused_candidate_iff cexRepos [0, 0] [0, 0] 1).2 (by decide) (by decide)

unseal Rat.add Rat.mul Rat.inv Rat.sub in
/-- C3, counterexample: for the one-document corpus `[rHello]` and the
query "xyz" — whose single term occurs in no document's search text — the
substring fallback returns `[]` as claimed, but the lexical-only path does
not: `get_top_n` takes the top of `argsort` without filtering zero scores,
so the zero-scored document is still returned. -/
theorem c3_bm25_no_overlap_cex :
    occursIn cexQueryXyz (lowerStr (searchText rHello)) = false ∧
    splitWs (lowerStr cexQueryXyz) = [cexQueryXyz] ∧
    simple_keyword_search cexStKw cexQueryXyz 5 = [] ∧
    bm25_search cexStKw cexQueryXyz 5 = [rHello] :=
  ⟨by decide, by decide, by decide, by decide⟩

/-- C3 (amended): for every non-empty corpus and every query none of whose
lower-cased whitespace-split terms occurs in any document's search text,
the naive substring fallback returns `[]`, and every BM25 score is zero,
but the lexical-only search still returns `min limit N` documents (for a
corpus of size `N`), because `get_top_n` does not restrict to
positive-score documents. -/
theorem c3_no_overlap_results :
    ∀ (repos : List Repo) (idfRaw : Str → ℚ) (src : String) (client : Bool)
      (cacheLoad : Option CacheData) (batches : List (Option (List Vec)))
      (q : Str) (limit : Nat),
    repos ≠ [] →
    (∀ t ∈ splitWs (lowerStr q), ∀ r ∈ repos, occursIn t (lowerStr (searchText r)) = false) →
    simple_keyword_search (load_data (some repos) src client cacheLoad batches idfRaw) q limit
        = [] ∧
    get_scores
        { corpus := (repos.map searchText).map (fun d => splitWs (lowerStr d)),
          idfRaw := idfRaw } (splitWs (lowerStr q))
        = List.replicate repos.length 0 ∧
    (bm25_search (load_data (some repos) src client cacheLoad batches idfRaw) q limit).length
        = min limit repos.length := by
  intro repos idfRaw src client cacheLoad batches q limit hne h
  have hnotok : ∀ t ∈ splitWs (lowerStr q),
      ∀ doc ∈ (repos.map searchText).map (fun d => splitWs (lowerStr d)), t ∉ doc := by
    intro t ht doc hdoc hmem
    rcases List.mem_map.mp hdoc with ⟨d, hd, rfl⟩
    rcases List.mem_map.mp hd with ⟨r, hr, rfl⟩
    have := occursIn_of_mem_splitWs t (lowerStr (searchText r)) hmem
    rw [h t ht r hr] at this
    exact Bool.noConfusion this
  have hzero := get_scores_zero_of_no_overlap
    ((repos.map searchText).map (fun d => splitWs (lowerStr d))) idfRaw
    (splitWs (lowerStr q)) hnotok
  have hlen : ((repos.map searchText).map (fun d => splitWs (lowerStr d))).length
      = repos.length := by simp
  refine ⟨?_, by rw [hzero, hlen], ?_⟩
  · have hrepos : (load_data (some repos) src client cacheLoad batches idfRaw).repos
        = repos := rfl
    unfold simple_keyword_search
    rw [hrepos]
    have hres : repos.filterMap (fun repo =>
        let text := lowerStr (searchText repo)
        let score := ((splitWs (lowerStr q)).filter (fun t => occursIn t text)).length
        if 0 < score then some ((score : ℚ), repo) else none) = [] := by
      rw [List.filterMap_eq_nil_iff]
      intro r hr
      have hfil : (splitWs (lowerStr q)).filter
          (fun t => occursIn t (lowerStr (searchText r))) = [] := by
        rw [List.filter_eq_nil_iff]
        intro t ht
        rw [h t ht r hr]
        exact Bool.noConfusion
      simp only [hfil, List.length_nil]
      simp
    simp only [hres, sortDescBy, List.take_nil, List.map_nil]
  · have hbm : (load_data (some repos) src client cacheLoad batches idfRaw).bm25
        = some { corpus := (repos.map searchText).map (fun d => splitWs (lowerStr d)),
                 idfRaw := idfRaw } := by
      unfold load_data
      have : (repos.map searchText).isEmpty = false := by
        simp [List.isEmpty_eq_false, hne]
      simp only [this]
      simp
    unfold bm25_search
    rw [hbm]
    rw [get_top_n_length]
    have : ((repos.map searchText).map (fun d => splitWs (lowerStr d))).length
        = repos.length := by simp
    rw [this]

/-- Witness for the amended C3 at a concrete input. -/
theorem c3_no_overlap_results_wit :
    simple_keyword_search (load_data (some [rHello]) "keyword" false none [] (fun _ => 0))
        cexQueryXyz 5 = [] ∧
    get_scores
        { corpus := ([rHello].map searchText).map (fun d => splitWs (lowerStr d)),
          idfRaw := fun _ => 0 } (splitWs (lowerStr cexQueryXyz))
        = List.replicate [rHello].length 0 ∧
    (bm25_search (load_data (some [rHello]) "keyword" false none [] (fun _ => 0))
        cexQueryXyz 5).length = min 5 [rHello].length :=
  c3_no_overlap_results [rHello] (fun _ => 0) "keyword" false none [] cexQueryXyz 5
    (by decide) (by decide)

/-- C4, counterexample: after a provider failure on the single batch of the
build (state `cexStFail`), the session's embeddings are absent, but
`embedding_source` still reads "google": the code never downgrades the
field; only the `None`-ness of `self.embeddings` routes later searches to
the lexical path. -/
theorem c4_source_not_downgraded_cex :
    cexStFail.embeddings = none ∧
    cexStFail.embedding_source = "google" ∧
    cexStFail.embedding_source ≠ "keyword" :=
  ⟨rfl, rfl, by decide⟩

/-- C4 (amended): if the embedding provider fails on any batch during the
vector-index build (with no usable cache), the build is aborted and no
embeddings are stored for the session, no exception propagates (the model
of the boundary is total), and every subsequent search call uses the
lexical-only path; the `embedding_source` field, however, is not
downgraded — it keeps the value "google", and the lexical routing is
decided solely by `self.embeddings` being `None`. -/
theorem c4_build_failure_degrades :
    ∀ (repos : List Repo) (client : Bool) (batches : List (Option (List Vec)))
      (idfRaw : Str → ℚ) (oracle : Option (List ℚ)) (q : Str) (limit : Nat),
    repos ≠ [] → none ∈ batches →
    (load_data (some repos) "google" client none batches idfRaw).embeddings = none ∧
    (load_data (some repos) "google" client none batches idfRaw).embedding_source
        = "google" ∧
    search (load_data (some repos) "google" client none batches idfRaw) oracle q limit
        = bm25_search (load_data (some repos) "google" client none batches idfRaw) q limit := by
  intro repos client batches idfRaw oracle q limit hne hfail
  have hbuild := buildGoogleEmbeddings_of_fail batches hfail
  have hempty : (repos.map searchText).isEmpty = false := by
    simp [List.isEmpty_eq_false, hne]
  have hemb : (load_data (some repos) "google" client none batches idfRaw).embeddings
      = none := by
    unfold load_data
    simp only [hempty, hbuild]
    simp [loadOrBuildEmbeddings, EmbedLoad.toOpt]
  refine ⟨hemb, rfl, ?_⟩
  have hbm : ∃ b, (load_data (some repos) "google" client none batches idfRaw).bm25
      = some b := by
    unfold load_data
    simp only [hempty]
    exact ⟨_, rfl⟩
  rcases hbm with ⟨b, hb⟩
  unfold search
  rw [hemb, hb]

/-- Witness for the amended C4 at a concrete input. -/
theorem c4_build_failure_degrades_wit :
    cexStFail.embeddings = none ∧
    cexStFail.embedding_source = "google" ∧
    search cexStFail none cexQuery 5 = bm25_search cexStFail cexQuery 5 :=
  c4_build_failure_degrades cexRepos true [none] cexIdf none cexQuery 5
    (by decide) (by decide)

/-- C5: an exception in the guarded vector block of the hybrid path
(`oracle = none`) is caught and the query is answered by the lexical-only
search; `search` never sees the exception. The model of the hybrid path is
a total function, so nothing propagates to the caller on any outcome. -/
theorem c5_hybrid_exception_fallback :
    ∀ (st : Searcher) (b : BM25Model) (e : List Vec) (q : Str) (limit : Nat),
    hybrid_search st b none q limit = bm25_search st q limit ∧
    (st.embeddings = some e → st.bm25 = some b →
      search st none q limit = bm25_search st q limit) := by
  intro st b e q limit
  refine ⟨rfl, ?_⟩
  intro h1 h2
  unfold search
  rw [h1, h2]
  rfl

/-- Witness for C5 at a concrete input. -/
theorem c5_hybrid_exception_fallback_wit :
    search cexSt none cexQuery 5 = bm25_search cexSt cexQuery 5 :=
  (c5_hybrid_exception_fallback cexSt cexBM [[1], [1]] cexQuery 5).2 rfl rfl

/-- C6: a persisted embedding cache is used on load iff its recorded
provider identity is "google" (the active provider on this path) and its
vector count equals the corpus size; a missing/unreadable cache or any
mismatch — including an absent vector list, whose `len` raises inside the
`try` — is a cache miss and the embeddings are rebuilt instead. -/
theorem c6_cache_validity :
    ∀ (dc : Nat) (c : CacheData) (br : Option (List Vec)),
    (loadOrBuildEmbeddings dc (some c) br = .fromCache c.vectors ↔
      (c.source = some "google" ∧ c.vectors.map List.length = some dc)) ∧
    loadOrBuildEmbeddings dc none br = .rebuilt br ∧
    (¬(c.source = some "google" ∧ c.vectors.map List.length = some dc) →
      loadOrBuildEmbeddings dc (some c) br = .rebuilt br) := by
  intro dc c br
  refine ⟨?_, rfl, ?_⟩
  · constructor
    · intro h
      by_cases hv : c.source = some "google" ∧ c.vectors.map List.length = some dc
      · exact hv
      · rw [loadOrBuildEmbeddings, if_neg hv] at h
        exact absurd h (by simp)
    · intro hv
      rw [loadOrBuildEmbeddings, if_pos hv]
  · intro hv
    rw [loadOrBuildEmbeddings, if_neg hv]

/-- Witness for C6 at concrete inputs: a count mismatch forces a rebuild. -/
theorem c6_cache_validity_wit :
    loadOrBuildEmbeddings 2 (some { source := some "google", vectors := some [[1]] })
        none = .rebuilt none :=
  (c6_cache_validity 2 { source := some "google", vectors := some [[1]] } none).2.2
    (by decide)

/-- C7: on every strategy path — hybrid, lexical-only, and substring
fallback — `search` returns at most `limit` documents, for every searcher
state, every provider outcome, every query and every limit. -/
theorem c7_limit_bound :
    ∀ (st : Searcher) (oracle : Option (List ℚ)) (q : Str) (limit : Nat),
    (search st oracle q limit).length ≤ limit := by
  intro st oracle q limit
  rcases st with ⟨re, de, em, es, b25, gc⟩
  cases em <;> cases b25 <;> simp only [search] <;>
    first
      | exact simple_keyword_search_length_le _ q limit
      | exact bm25_search_length_le _ q limit
      | exact hybrid_search_length_le _ _ oracle q limit

/-- C8: when the backing data is absent or holds zero documents, the loaded
state has no indices, and `search` returns `[]` for every query, limit and
provider outcome; the model is total, so nothing is raised. -/
theorem c8_empty_corpus :
    ∀ (src : String) (client : Bool) (cacheLoad : Option CacheData)
      (batches : List (Option (List Vec))) (idfRaw : Str → ℚ)
      (oracle : Option (List ℚ)) (q : Str) (limit : Nat),
    search (load_data none src client cacheLoad batches idfRaw) oracle q limit = [] ∧
    search (load_data (some []) src client cacheLoad batches idfRaw) oracle q limit = [] := by
  intro src client cacheLoad batches idfRaw oracle q limit
  constructor
  · show simple_keyword_search (load_data none src client cacheLoad batches idfRaw) q limit
        = []
    simp [simple_keyword_search, sortDescBy]
  · have hemb : (load_data (some []) src client cacheLoad batches idfRaw).embeddings
        = none := by
      unfold load_data
      simp
    have hbm : (load_data (some []) src client cacheLoad batches idfRaw).bm25 = none := by
      unfold load_data
      simp
    unfold search
    rw [hemb, hbm]
    show simple_keyword_search (load_data (some []) src client cacheLoad batches idfRaw)
        q limit = []
    simp [simple_keyword_search, load_data, sortDescBy]

/-- C9: if document `i` has a strictly higher lexical score and a strictly
higher vector similarity than document `j`, the fused RRF ranking places
`i` at least as high as `j` (its position in the sorted fused list is no
larger). -/
theorem c9_rrf_monotonicity :
    ∀ (repos : List Repo) (vec bm : List ℚ) (i j : Nat),
    vec.length = repos.length → bm.length = repos.length →
    i < repos.length → j < repos.length →
    bm.getD j 0 < bm.getD i 0 → vec.getD j 0 < vec.getD i 0 →
    firstIdx (fun p => p.2 == i) (fusedRanking repos vec bm) ≤
      firstIdx (fun p => p.2 == j) (fusedRanking repos vec bm) := by
  intro repos vec bm i j hv hb hi hj hbm hvec
  have hvi : i < vec.length := by omega
  have hvj : j < vec.length := by omega
  have hbi : i < bm.length := by omega
  have hbj : j < bm.length := by omega
  have hrv := rankOfIdx_strict vec repos.length i j hvi hvj hvec
  have hrb := rankOfIdx_strict bm repos.length i j hbi hbj hbm
  have hterm : ∀ r s : Nat, r < s →
      (1 : ℚ) / (60 + (s : ℚ)) < 1 / (60 + (r : ℚ)) := by
    intro r s hrs
    apply one_div_lt_one_div_of_lt
    · positivity
    · have : (r : ℚ) < (s : ℚ) := by exact_mod_cast hrs
      linarith
  have hscore : fusedScore repos vec bm j < fusedScore repos vec bm i := by
    unfold fusedScore
    exact add_lt_add (hterm _ _ hrv) (hterm _ _ hrb)
  have hmemi : (fusedScore repos vec bm i, i) ∈ fusedCandidates repos vec bm :=
    (mem_fusedCandidates repos vec bm _).mpr
      ⟨hi, Or.inr ((hasVecRank_iff vec i).mpr hvi), rfl⟩
  have hmemj : (fusedScore repos vec bm j, j) ∈ fusedCandidates repos vec bm :=
    (mem_fusedCandidates repos vec bm _).mpr
      ⟨hj, Or.inr ((hasVecRank_iff vec j).mpr hvj), rfl⟩
  have hperm := sortDescBy_perm (fun p : ℚ × Nat => p.1) (fusedCandidates repos vec bm)
  have hmi : (fusedScore repos vec bm i, i) ∈ fusedRanking repos vec bm :=
    hperm.mem_iff.mpr hmemi
  have hmj : (fusedScore repos vec bm j, j) ∈ fusedRanking repos vec bm :=
    hperm.mem_iff.mpr hmemj
  have hu : ∀ x ∈ fusedRanking repos vec bm, ∀ y ∈ fusedRanking repos vec bm,
      x.2 = y.2 → x = y := by
    intro x hx y hy
    exact fusedCandidates_uniq repos vec bm x (hperm.mem_iff.mp hx) y (hperm.mem_iff.mp hy)
  have := firstIdx_order (fun p : ℚ × Nat => p.1) (fun p => p.2) (fusedRanking repos vec bm)
    (sortDescBy_pairwise _ _) hu (fusedScore repos vec bm i, i)
    (fusedScore repos vec bm j, j) hmi hmj hscore
  exact le_of_lt this

unseal Rat.add Rat.mul Rat.inv Rat.sub in
/-- Witness for C9 at a concrete input. -/
theorem c9_rrf_monotonicity_wit :
    firstIdx (fun p => p.2 == 0) (fusedRanking cexRepos [1, 0] [1, 0]) ≤
      firstIdx (fun p => p.2 == 1) (fusedRanking cexRepos [1, 0] [1, 0]) :=
  c9_rrf_monotonicity cexRepos [1, 0] [1, 0] 0 1 (by decide) (by decide) (by decide)
    (by decide) (by decide) (by decide)

/-- C10: a `search` call leaves the searcher state unchanged — none of the
methods on the query path assigns to `self`, so the threaded state returned
by `searchS` is the input state and the result is that of the pure
`search`. The fields `repos`, `descriptions`, `embeddings`, `bm25` and
`embedding_source` are therefore identical before and after any query. -/
theorem c10_search_frame :
    ∀ (st : Searcher) (oracle : Option (List ℚ)) (q : Str) (limit : Nat),
    (searchS st oracle q limit).2 = st ∧
    (searchS st oracle q limit).1 = search st oracle q limit := by
  intro st oracle q limit
  rcases st with ⟨re, de, em, es, b25, gc⟩
  cases em <;> cases b25 <;> exact ⟨rfl, rfl⟩
